import Mathlib

/-!
# Verification of the async DynamoDB `BatchWriter` (aioboto3/dynamodb/table.py)

Shallow embedding of the `BatchWriter` class: an ordered buffer of mutation
requests with threshold-triggered flushing, optional primary-key
deduplication (`overwrite_by_pkeys`), retry of backend-reported unprocessed
items, and drain-on-exit.

Python dictionaries that carry attribute values are modelled as association
lists (`Row`); the tagged request dictionaries `{'PutRequest': {'Item': …}}`
and `{'DeleteRequest': {'Key': …}}` become the inductive `Req`.  The mutable
`self._items_buffer` becomes explicit state passing; a Python exception
becomes an `Option`al error in the result, paired with the buffer state as
it stands when the exception propagates.  Every backend call made is
recorded in a `calls` trace, so theorems can speak about what was sent.
-/

namespace BatchWriter

/-- An attribute value stored in a row or key (enough of DynamoDB's value
universe for the properties at hand; values are only ever compared for
equality). -/
inductive AttrVal where
  | nat : Nat → AttrVal
  | str : String → AttrVal
deriving DecidableEq

/-- An ordered mapping of attribute name to value (a Python dict as passed
to `put_item`/`delete_item`). -/
abbrev Row := List (String × AttrVal)

/-- A buffered mutation request: `{'PutRequest': {'Item': item}}` or
`{'DeleteRequest': {'Key': key}}`. -/
inductive Req where
  | put : Row → Req
  | delete : Row → Req
deriving DecidableEq

/-- The value found at `response['UnprocessedItems']`: either a falsy
non-dict value (`None`, modelled by `null`) or a dict from table name to a
sequence of requests. -/
inductive UnprocVal where
  | null : UnprocVal
  | map : List (String × List Req) → UnprocVal
deriving DecidableEq

/-- The backend's response to `batch_write_item`.  `unprocessedItems = none`
models a response dict with no `'UnprocessedItems'` key at all (indexing it
then raises `KeyError`). -/
structure Response where
  unprocessedItems : Option UnprocVal
deriving DecidableEq

/-- An exception escaping a `BatchWriter` operation: a `KeyError` raised
while extracting a configured primary-key attribute, a `KeyError` from
`response['UnprocessedItems']`, or an error raised by the backend call
itself (of the backend's own error type `ε`). -/
inductive DynErr (ε : Type) where
  | keyError : String → DynErr ε
  | respKeyError : DynErr ε
  | backend : ε → DynErr ε
deriving DecidableEq

/-- The constructor configuration of a `BatchWriter`: table name,
`flush_amount`, and the optional `overwrite_by_pkeys` list.
(`on_exit_loop_sleep` only inserts sleeps and never affects buffer state,
so it is not modelled.) -/
structure Config where
  tableName : String
  flushAmount : Nat
  overwriteByPkeys : Option (List String)

/-- Python truthiness of `self._overwrite_by_pkeys`: `None` and `[]` are
falsy, a non-empty list is truthy. -/
def pkeysActive : Option (List String) → Bool
  | Option.none => false
  | Option.some l => !l.isEmpty

/-- The configured primary-key attribute list (empty when unset). -/
def pkL (cfg : Config) : List String := cfg.overwriteByPkeys.getD []

/-- `mapping[key]`: Python dict indexing, raising `KeyError(key)` when the
key is absent. -/
def lookupAttr (m : Row) (k : String) : Except String AttrVal :=
  match m.lookup k with
  | some v => Except.ok v
  | none => Except.error k

/-- `BatchWriter._extract_pkey_values`: the list
`[request['PutRequest']['Item'][key] for key in self._overwrite_by_pkeys]`
(resp. the `DeleteRequest`/`Key` variant), raising `KeyError` at the first
configured attribute missing from the row/key. -/
def extractPkeyValues (pk : List String) : Req → Except String (List AttrVal)
  | Req.put item => pk.mapM (lookupAttr item)
  | Req.delete key => pk.mapM (lookupAttr key)

/-- The `for item in self._items_buffer: … self._items_buffer.remove(item)`
loop of `BatchWriter._remove_dup_pkeys_request_if_any`, made explicit:
CPython's list iterator is index based, so after `remove` shrinks the list
the element that slid into the removed slot is skipped.  `List.erase`
models `list.remove` (first element equal to the argument is dropped). -/
def removeDupLoop (pk : List String) (t : List AttrVal) :
    Nat → List Req → Nat → List Req × Option String
  | 0, buf, _ => (buf, Option.none)
  | Nat.succ fuel, buf, i =>
    if h : i < buf.length then
      match extractPkeyValues pk (buf.get ⟨i, h⟩) with
      | Except.error e => (buf, some e)
      | Except.ok ex =>
        if ex = t then removeDupLoop pk t fuel (buf.erase (buf.get ⟨i, h⟩)) (i + 1)
        else removeDupLoop pk t fuel buf (i + 1)
    else (buf, Option.none)

/-- `BatchWriter._remove_dup_pkeys_request_if_any`: extract the new
request's key tuple (a `KeyError` here propagates with the buffer
untouched), then run the removal scan over the buffer.  The scan is given
`buf.length` iterations of fuel, which always suffices: the index grows by
one per iteration while the list never grows, so the loop exits within
`buf.length` iterations. -/
def removeDupPkeysRequestIfAny (cfg : Config) (r : Req) (buf : List Req) :
    List Req × Option String :=
  match extractPkeyValues (pkL cfg) r with
  | Except.error e => (buf, some e)
  | Except.ok t => removeDupLoop (pkL cfg) t buf.length buf 0

/-- The first half of `BatchWriter._add_request_and_process`: the optional
dedup scan followed by `self._items_buffer.append(request)`.  On a
`KeyError` during the scan the append does not happen and the buffer is
left as the partially executed scan left it. -/
def dedupAndAppend (cfg : Config) (r : Req) (buf : List Req) :
    List Req × Option String :=
  if pkeysActive cfg.overwriteByPkeys then
    match removeDupPkeysRequestIfAny cfg r buf with
    | (b, some e) => (b, some e)
    | (b, none) => (b ++ [r], none)
  else (buf ++ [r], none)

/-- The observable result of one `BatchWriter` operation: the buffer state
afterwards, the exception that propagated (if any), and the trace of
backend calls made (each entry is the batch sent to `batch_write_item`). -/
structure Outcome (ε : Type) where
  buf : List Req
  err : Option (DynErr ε)
  calls : List (List Req)
deriving DecidableEq

/-- The backend capability: `batch_write_item` for the fixed table, taking
the batch sent and either raising an error or returning a response. -/
abbrev Backend (ε : Type) := List Req → Except ε Response

/-- The requests retried from a present `'UnprocessedItems'` value:
`if not unprocessed_items: unprocessed_items = {}` followed by
`unprocessed_items.get(self._table_name, [])`. -/
def unprocFor (cfg : Config) (v : UnprocVal) : List Req :=
  match v with
  | UnprocVal.null => []
  | UnprocVal.map m => (m.lookup cfg.tableName).getD []

/-- `BatchWriter._flush`: slice off the first `flush_amount` requests,
shrink the buffer **before** the backend call, send, then index
`response['UnprocessedItems']` (raising `KeyError` when absent) and extend
the buffer with the unprocessed requests for this table. -/
def flush {ε : Type} (cfg : Config) (bkd : Backend ε) (buf : List Req) : Outcome ε :=
  let itemsToSend := buf.take cfg.flushAmount
  let rest := buf.drop cfg.flushAmount
  match bkd itemsToSend with
  | Except.error e => ⟨rest, some (DynErr.backend e), [itemsToSend]⟩
  | Except.ok resp =>
    match resp.unprocessedItems with
    | Option.none => ⟨rest, some DynErr.respKeyError, [itemsToSend]⟩
    | Option.some v => ⟨rest ++ unprocFor cfg v, none, [itemsToSend]⟩

/-- `BatchWriter._flush_if_needed`: flush exactly when
`len(self._items_buffer) >= self._flush_amount`. -/
def flushIfNeeded {ε : Type} (cfg : Config) (bkd : Backend ε) (buf : List Req) : Outcome ε :=
  if cfg.flushAmount ≤ buf.length then flush cfg bkd buf else ⟨buf, none, []⟩

/-- `BatchWriter._add_request_and_process`: dedup (when configured), append,
then the threshold check. -/
def addRequestAndProcess {ε : Type} (cfg : Config) (bkd : Backend ε)
    (buf : List Req) (r : Req) : Outcome ε :=
  match dedupAndAppend cfg r buf with
  | (b, some e) => ⟨b, some (DynErr.keyError e), []⟩
  | (b, none) => flushIfNeeded cfg bkd b

/-- `BatchWriter.put_item`. -/
def putItem {ε : Type} (cfg : Config) (bkd : Backend ε) (buf : List Req)
    (item : Row) : Outcome ε :=
  addRequestAndProcess cfg bkd buf (Req.put item)

/-- `BatchWriter.delete_item`. -/
def deleteItem {ε : Type} (cfg : Config) (bkd : Backend ε) (buf : List Req)
    (key : Row) : Outcome ε :=
  addRequestAndProcess cfg bkd buf (Req.delete key)

/-- The `while self._items_buffer: await self._flush()` drain loop of
`BatchWriter.__aexit__`, with explicit fuel: `none` models a loop that has
not terminated within `fuel` iterations.  An exception raised by a flush
propagates out of the loop with the buffer as that flush left it. -/
def aexitDrain {ε : Type} (cfg : Config) (bkd : Backend ε) :
    Nat → List Req → Option (Outcome ε)
  | _, [] => some ⟨[], none, []⟩
  | 0, _ :: _ => none
  | Nat.succ fuel, x :: xs =>
    let o := flush cfg bkd (x :: xs)
    match o.err with
    | some _ => some o
    | none =>
      match aexitDrain cfg bkd fuel o.buf with
      | none => none
      | some o2 => some ⟨o2.buf, o2.err, o.calls ++ o2.calls⟩

/-- `BatchWriter.__aexit__(exc_type, exc_value, tb)`: the exception
information passed in on an exceptional scope exit is ignored — the drain
loop runs identically on normal and error exit paths. -/
def aexit {ε : Type} (cfg : Config) (bkd : Backend ε) (_excInfo : Option String)
    (fuel : Nat) (buf : List Req) : Option (Outcome ε) :=
  aexitDrain cfg bkd fuel buf

/-- One public operation issued by the application. -/
inductive Op where
  | put : Row → Op
  | delete : Row → Op
  | close : Nat → Op

/-- Execute one public operation on the given buffer state. -/
def opStep {ε : Type} (cfg : Config) (bkd : Backend ε) (buf : List Req) :
    Op → Option (Outcome ε)
  | Op.put row => some (putItem cfg bkd buf row)
  | Op.delete key => some (deleteItem cfg bkd buf key)
  | Op.close fuel => aexit cfg bkd none fuel buf

/-- Run a sequence of public operations, threading the buffer, stopping at
the first operation that raises (the exception aborts the caller's
sequence) and concatenating the backend-call traces.  `none` models a
non-terminating drain. -/
def runOps {ε : Type} (cfg : Config) (bkd : Backend ε) :
    List Op → List Req → Option (Outcome ε)
  | [], buf => some ⟨buf, none, []⟩
  | op :: rest, buf =>
    match opStep cfg bkd buf op with
    | none => none
    | some o =>
      match o.err with
      | some _ => some o
      | none =>
        match runOps cfg bkd rest o.buf with
        | none => none
        | some o2 => some ⟨o2.buf, o2.err, o.calls ++ o2.calls⟩

/-- No two buffered requests have the same extraction result (the dedup
invariant, for the configured key list `pk`). -/
def noDupKeys (pk : List String) (buf : List Req) : Prop :=
  buf.Pairwise (fun a b => extractPkeyValues pk a ≠ extractPkeyValues pk b)

/-- Every buffered request's key extraction succeeds. -/
def extractsOk (pk : List String) (buf : List Req) : Prop :=
  ∀ r ∈ buf, ∃ t, extractPkeyValues pk r = Except.ok t

/-- The backend contract from the spec's external-interface section: the
unprocessed requests reported for this table are a sub-sequence of the
batch that was sent (the backend returns declined rows verbatim). -/
def wellBehaved {ε : Type} (cfg : Config) (bkd : Backend ε) : Prop :=
  ∀ sent resp v, bkd sent = Except.ok resp → resp.unprocessedItems = some v →
    List.Sublist (unprocFor cfg v) sent

instance {α β : Type} [DecidableEq α] [DecidableEq β] : DecidableEq (Except α β) :=
  fun a b =>
    match a, b with
    | Except.ok x, Except.ok y =>
      if h : x = y then Decidable.isTrue (congrArg Except.ok h)
      else Decidable.isFalse (fun hc => h (Except.ok.inj hc))
    | Except.error x, Except.error y =>
      if h : x = y then Decidable.isTrue (congrArg Except.error h)
      else Decidable.isFalse (fun hc => h (Except.error.inj hc))
    | Except.ok _, Except.error _ => Decidable.isFalse (fun hc => Except.noConfusion hc)
    | Except.error _, Except.ok _ => Decidable.isFalse (fun hc => Except.noConfusion hc)

/-- Decidable match of a buffered request against an extracted key tuple. -/
def matchB (pk : List String) (t : List AttrVal) (r : Req) : Bool :=
  decide (extractPkeyValues pk r = Except.ok t)

/-! ## Lemmas about the dedup scan -/

theorem get_mem_drop (buf : List Req) (i : Nat) (h : i < buf.length) :
    buf.get ⟨i, h⟩ ∈ buf.drop i := by
  rw [List.get_eq_getElem, List.drop_eq_getElem_cons h]
  exact List.mem_cons_self _ _

/-- If nothing at or beyond index `i` matches the tuple `t` (and extraction
succeeds there), the scan leaves the buffer untouched. -/
theorem removeDupLoop_no_match (pk : List String) (t : List AttrVal) (d : Nat) :
    ∀ (buf : List Req) (i : Nat),
    (∀ r ∈ buf.drop i, ∃ e, extractPkeyValues pk r = Except.ok e ∧ e ≠ t) →
    removeDupLoop pk t d buf i = (buf, Option.none) := by
  induction d with
  | zero =>
    intro buf i _
    rw [removeDupLoop]
  | succ d ih =>
    intro buf i hnm
    rw [removeDupLoop]
    by_cases h : i < buf.length
    · rw [dif_pos h]
      obtain ⟨e, he, hne⟩ := hnm _ (get_mem_drop buf i h)
      rw [he]
      simp only [hne, if_neg, ite_false]
      exact ih buf (i + 1)
        (fun r hr => hnm r (List.drop_subset_drop_left buf (Nat.le_succ i) hr))
    · rw [dif_neg h]

/-- Under the dedup invariant (pairwise distinct extraction results), at
most one buffered request matches any given tuple. -/
theorem countP_matchB_le_one (pk : List String) (t : List AttrVal) :
    ∀ buf : List Req, noDupKeys pk buf → buf.countP (matchB pk t) ≤ 1 := by
  intro buf
  induction buf with
  | nil => intro _; simp
  | cons x xs ih =>
    intro hnd
    rw [noDupKeys, List.pairwise_cons] at hnd
    obtain ⟨hx, hxs⟩ := hnd
    by_cases hm : matchB pk t x = true
    · rw [List.countP_cons_of_pos _ _ hm]
      have hzero : xs.countP (matchB pk t) = 0 := by
        rw [List.countP_eq_zero]
        intro y hy hmy
        rw [matchB, decide_eq_true_iff] at hm hmy
        exact hx y hy (hm.trans hmy.symm)
      omega
    · rw [List.countP_cons_of_neg _ _ hm]
      exact ih hxs

/-- When at most one element matches, every survivor of `eraseP` is a
non-match. -/
theorem not_matchB_of_mem_eraseP (pk : List String) (t : List AttrVal) :
    ∀ buf : List Req, buf.countP (matchB pk t) ≤ 1 →
    ∀ a ∈ buf.eraseP (matchB pk t), matchB pk t a = false := by
  intro buf
  induction buf with
  | nil => intro _ a ha; simp at ha
  | cons x xs ih =>
    intro hcnt a ha
    by_cases hm : matchB pk t x = true
    · rw [List.eraseP_cons_of_pos hm] at ha
      rw [List.countP_cons_of_pos _ _ hm] at hcnt
      have hzero : xs.countP (matchB pk t) = 0 := by omega
      rw [List.countP_eq_zero] at hzero
      exact Bool.eq_false_iff.mpr (hzero a ha)
    · rw [List.eraseP_cons_of_neg hm] at ha
      rcases List.mem_cons.mp ha with h | h
      · subst h; exact Bool.eq_false_iff.mpr hm
      · rw [List.countP_cons_of_neg _ _ hm] at hcnt
        exact ih hcnt a h

/-- `list.remove` on a decomposed buffer whose removed element does not
occur earlier: exactly the distinguished occurrence disappears. -/
theorem erase_split {x : Req} {l l₁ l₂ : List Req} (hs : l = l₁ ++ x :: l₂)
    (hx : x ∉ l₁) : l.erase x = l₁ ++ l₂ := by
  subst hs
  rw [List.erase_append_right _ hx, List.erase_cons_head]

theorem countP_split (p : Req → Bool) {l l₁ : List Req} {x : Req} {l₂ : List Req}
    (hs : l = l₁ ++ x :: l₂) :
    l.countP p = l₁.countP p + (x :: l₂).countP p := by
  subst hs
  rw [List.countP_append]

/-- The scan, started at index `i` with no match in the prefix, removes
exactly the (at most one) matching entry from the unscanned suffix. -/
theorem removeDupLoop_unique (pk : List String) (t : List AttrVal) (d : Nat) :
    ∀ (buf : List Req) (i : Nat), buf.length - i ≤ d →
    (∀ r ∈ buf, ∃ e, extractPkeyValues pk r = Except.ok e) →
    buf.countP (matchB pk t) ≤ 1 →
    (∀ r ∈ buf.take i, matchB pk t r = false) →
    removeDupLoop pk t d buf i =
      (buf.take i ++ (buf.drop i).eraseP (matchB pk t), Option.none) := by
  induction d with
  | zero =>
    intro buf i hd _ _ _
    have hlen : buf.length ≤ i := by omega
    rw [removeDupLoop, List.take_of_length_le hlen, List.drop_eq_nil_of_le hlen]
    simp
  | succ d ih =>
    intro buf i hd hok hcnt hpre
    rw [removeDupLoop]
    by_cases h : i < buf.length
    · rw [dif_pos h]
      obtain ⟨e, he⟩ := hok _ (List.get_mem buf i h)
      rw [he]
      dsimp only
      by_cases hp : e = t
      · rw [if_pos hp]
        have hmx : matchB pk t (buf.get ⟨i, h⟩) = true := by
          rw [matchB, decide_eq_true_iff, he, hp]
        -- the scanned element is not in the already-scanned prefix
        have hnotpre : buf.get ⟨i, h⟩ ∉ buf.take i := by
          intro hmem
          rw [hpre _ hmem] at hmx
          exact Bool.false_ne_true hmx
        have hsplit : buf = buf.take i ++ buf.get ⟨i, h⟩ :: buf.drop (i + 1) := by
          conv_lhs => rw [← List.take_append_drop i buf]
          rw [List.drop_eq_getElem_cons h]
          rfl
        have herase : buf.erase (buf.get ⟨i, h⟩) = buf.take i ++ buf.drop (i + 1) :=
          erase_split hsplit hnotpre
        rw [herase]
        -- no further match exists beyond the erased one
        have hsum := countP_split (matchB pk t) hsplit
        rw [List.countP_cons_of_pos _ _ hmx] at hsum
        have hcnt0 : (buf.drop (i + 1)).countP (matchB pk t) = 0 := by omega
        have hcnt' : ∀ a ∈ buf.drop (i + 1), ¬ matchB pk t a = true :=
          List.countP_eq_zero.mp hcnt0
        have hlen_take : (buf.take i).length = i := by
          rw [List.length_take]; omega
        have hnomatch : ∀ r ∈ (buf.take i ++ buf.drop (i + 1)).drop (i + 1),
            ∃ e', extractPkeyValues pk r = Except.ok e' ∧ e' ≠ t := by
          intro r hr
          rw [List.drop_append_eq_append_drop, hlen_take] at hr
          have h1 : (buf.take i).drop (i + 1) = [] :=
            List.drop_eq_nil_of_le (by omega)
          rw [h1, List.nil_append, List.drop_drop] at hr
          have hr' : r ∈ buf.drop (i + 1) :=
            List.drop_subset_drop_left buf (by omega) hr
          obtain ⟨e', he'⟩ := hok r (List.mem_of_mem_drop hr')
          refine ⟨e', he', ?_⟩
          intro hc
          exact hcnt' r hr' (by rw [matchB, decide_eq_true_iff, he', hc])
        rw [removeDupLoop_no_match pk t d
          (buf.take i ++ buf.drop (i + 1)) (i + 1) hnomatch]
        have hdropP : (buf.drop i).eraseP (matchB pk t) = buf.drop (i + 1) := by
          rw [List.drop_eq_getElem_cons h]
          exact List.eraseP_cons_of_pos hmx
        rw [hdropP]
      · rw [if_neg hp]
        have hmx : matchB pk t (buf.get ⟨i, h⟩) = false := by
          rw [matchB, decide_eq_false_iff_not]
          intro hc
          rw [he] at hc
          exact hp (Except.ok.inj hc)
        have hpre' : ∀ r ∈ buf.take (i + 1), matchB pk t r = false := by
          intro r hr
          rw [← List.take_concat_get buf i h, List.concat_eq_append] at hr
          rcases List.mem_append.mp hr with h1 | h1
          · exact hpre r h1
          · rw [List.mem_singleton] at h1
            subst h1
            exact hmx
        rw [ih buf (i + 1) (by omega) hok hcnt hpre']
        have htake : buf.take (i + 1) = buf.take i ++ [buf.get ⟨i, h⟩] := by
          rw [← List.take_concat_get buf i h, List.concat_eq_append]
          rfl
        have hdrop : buf.drop i = buf.get ⟨i, h⟩ :: buf.drop (i + 1) :=
          List.drop_eq_getElem_cons h
        have hmx' : ¬ matchB pk t (buf.get ⟨i, h⟩) = true := by
          rw [hmx]; exact Bool.false_ne_true
        rw [htake, hdrop, List.eraseP_cons_of_neg hmx', List.append_assoc,
          List.singleton_append]
    · rw [dif_neg h]
      have hlen : buf.length ≤ i := by omega
      rw [List.take_of_length_le hlen, List.drop_eq_nil_of_le hlen]
      simp

/-! ## Characterizations of `_flush` and the dedup-append step -/

theorem flush_error_eq {ε : Type} (cfg : Config) (bkd : Backend ε) (buf : List Req)
    {e : ε} (hbk : bkd (buf.take cfg.flushAmount) = Except.error e) :
    flush cfg bkd buf =
      ⟨buf.drop cfg.flushAmount, some (DynErr.backend e), [buf.take cfg.flushAmount]⟩ := by
  simp only [flush]
  rw [hbk]

theorem flush_nokey_eq {ε : Type} (cfg : Config) (bkd : Backend ε) (buf : List Req)
    {resp : Response} (hbk : bkd (buf.take cfg.flushAmount) = Except.ok resp)
    (hri : resp.unprocessedItems = Option.none) :
    flush cfg bkd buf =
      ⟨buf.drop cfg.flushAmount, some DynErr.respKeyError, [buf.take cfg.flushAmount]⟩ := by
  simp only [flush]
  rw [hbk]
  dsimp only
  rw [hri]

theorem flush_ok_eq {ε : Type} (cfg : Config) (bkd : Backend ε) (buf : List Req)
    {resp : Response} {v : UnprocVal} (hbk : bkd (buf.take cfg.flushAmount) = Except.ok resp)
    (hri : resp.unprocessedItems = Option.some v) :
    flush cfg bkd buf =
      ⟨buf.drop cfg.flushAmount ++ unprocFor cfg v, Option.none,
        [buf.take cfg.flushAmount]⟩ := by
  simp only [flush]
  rw [hbk]
  dsimp only
  rw [hri]

/-- The dedup scan wrapper, under the invariant's hypotheses: the first (and
only possible) matching entry is erased and nothing else changes. -/
theorem removeDup_eq_eraseP (cfg : Config) (r : Req) (buf : List Req)
    (t : List AttrVal) (ht : extractPkeyValues (pkL cfg) r = Except.ok t)
    (hok : ∀ x ∈ buf, ∃ e, extractPkeyValues (pkL cfg) x = Except.ok e)
    (hcnt : buf.countP (matchB (pkL cfg) t) ≤ 1) :
    removeDupPkeysRequestIfAny cfg r buf =
      (buf.eraseP (matchB (pkL cfg) t), Option.none) := by
  rw [removeDupPkeysRequestIfAny, ht]
  have hu := removeDupLoop_unique (pkL cfg) t buf.length buf 0 (by omega) hok hcnt
    (by intro x hx; simp at hx)
  simpa using hu

/-- The dedup-and-append step, under the invariant's hypotheses. -/
theorem dedupAndAppend_eq (cfg : Config) (r : Req) (buf : List Req)
    (t : List AttrVal) (hact : pkeysActive cfg.overwriteByPkeys = true)
    (ht : extractPkeyValues (pkL cfg) r = Except.ok t)
    (hok : ∀ x ∈ buf, ∃ e, extractPkeyValues (pkL cfg) x = Except.ok e)
    (hcnt : buf.countP (matchB (pkL cfg) t) ≤ 1) :
    dedupAndAppend cfg r buf =
      (buf.eraseP (matchB (pkL cfg) t) ++ [r], Option.none) := by
  rw [dedupAndAppend, if_pos hact, removeDup_eq_eraseP cfg r buf t ht hok hcnt]

/-! ## The dedup invariant and its preservation -/

/-- The dedup invariant: all buffered requests extract successfully, and no
two extract to the same tuple. -/
def bufInv (pk : List String) (buf : List Req) : Prop :=
  extractsOk pk buf ∧ noDupKeys pk buf

theorem bufInv_sublist {pk : List String} {l l' : List Req}
    (hs : List.Sublist l' l) (h : bufInv pk l) : bufInv pk l' :=
  ⟨fun r hr => h.1 r (hs.subset hr), List.Pairwise.sublist hs h.2⟩

theorem flush_pres {ε : Type} (cfg : Config) (bkd : Backend ε) (buf : List Req)
    (hwb : wellBehaved cfg bkd) (h : bufInv (pkL cfg) buf) :
    bufInv (pkL cfg) (flush cfg bkd buf).buf := by
  cases hbk : bkd (buf.take cfg.flushAmount) with
  | error e =>
    rw [flush_error_eq cfg bkd buf hbk]
    exact bufInv_sublist (List.drop_sublist _ _) h
  | ok resp =>
    cases hri : resp.unprocessedItems with
    | none =>
      rw [flush_nokey_eq cfg bkd buf hbk hri]
      exact bufInv_sublist (List.drop_sublist _ _) h
    | some v =>
      rw [flush_ok_eq cfg bkd buf hbk hri]
      have hu : List.Sublist (unprocFor cfg v) (buf.take cfg.flushAmount) :=
        hwb _ _ _ hbk hri
      constructor
      · intro r hr
        rcases List.mem_append.mp hr with h1 | h1
        · exact h.1 r (List.mem_of_mem_drop h1)
        · exact h.1 r (List.take_subset _ _ (hu.subset h1))
      · show List.Pairwise _ _
        rw [List.pairwise_append]
        have hbufp : List.Pairwise
            (fun a b => extractPkeyValues (pkL cfg) a ≠ extractPkeyValues (pkL cfg) b)
            (buf.take cfg.flushAmount ++ buf.drop cfg.flushAmount) := by
          rw [List.take_append_drop]
          exact h.2
        rw [List.pairwise_append] at hbufp
        refine ⟨List.Pairwise.sublist (List.drop_sublist _ _) h.2,
          List.Pairwise.sublist (hu.trans (List.take_sublist _ _)) h.2, ?_⟩
        intro a ha b hb
        exact (hbufp.2.2 b (hu.subset hb) a ha).symm

theorem flushIfNeeded_pres {ε : Type} (cfg : Config) (bkd : Backend ε) (buf : List Req)
    (hwb : wellBehaved cfg bkd) (h : bufInv (pkL cfg) buf) :
    bufInv (pkL cfg) (flushIfNeeded cfg bkd buf).buf := by
  rw [flushIfNeeded]
  by_cases hc : cfg.flushAmount ≤ buf.length
  · rw [if_pos hc]; exact flush_pres cfg bkd buf hwb h
  · rw [if_neg hc]; exact h

theorem bufInv_append_erase (pk : List String) (buf : List Req) (r : Req)
    (t : List AttrVal) (ht : extractPkeyValues pk r = Except.ok t)
    (h : bufInv pk buf) : bufInv pk (buf.eraseP (matchB pk t) ++ [r]) := by
  have hcnt := countP_matchB_le_one pk t buf h.2
  constructor
  · intro x hx
    rcases List.mem_append.mp hx with h1 | h1
    · exact h.1 x ((List.eraseP_sublist buf).subset h1)
    · rw [List.mem_singleton] at h1
      subst h1
      exact ⟨t, ht⟩
  · show List.Pairwise _ _
    rw [List.pairwise_append]
    refine ⟨List.Pairwise.sublist (List.eraseP_sublist buf) h.2, by simp, ?_⟩
    intro a ha b hb
    rw [List.mem_singleton] at hb
    subst hb
    have hnm := not_matchB_of_mem_eraseP pk t buf hcnt a ha
    rw [matchB, decide_eq_false_iff_not] at hnm
    intro hc
    rw [ht] at hc
    exact hnm hc

theorem addReq_pres {ε : Type} (cfg : Config) (bkd : Backend ε) (buf : List Req)
    (r : Req) (hwb : wellBehaved cfg bkd) (hact : pkeysActive cfg.overwriteByPkeys = true)
    (h : bufInv (pkL cfg) buf) :
    bufInv (pkL cfg) (addRequestAndProcess cfg bkd buf r).buf := by
  rw [addRequestAndProcess]
  cases hx : extractPkeyValues (pkL cfg) r with
  | error e =>
    have hd : dedupAndAppend cfg r buf = (buf, some e) := by
      rw [dedupAndAppend, if_pos hact, removeDupPkeysRequestIfAny, hx]
    rw [hd]
    exact h
  | ok t =>
    have hcnt := countP_matchB_le_one (pkL cfg) t buf h.2
    rw [dedupAndAppend_eq cfg r buf t hact hx h.1 hcnt]
    exact flushIfNeeded_pres cfg bkd _ hwb (bufInv_append_erase _ buf r t hx h)

theorem drain_pres {ε : Type} (cfg : Config) (bkd : Backend ε)
    (hwb : wellBehaved cfg bkd) :
    ∀ (fuel : Nat) (buf : List Req) (o : Outcome ε), bufInv (pkL cfg) buf →
    aexitDrain cfg bkd fuel buf = some o → bufInv (pkL cfg) o.buf := by
  intro fuel
  induction fuel with
  | zero =>
    intro buf o h hr
    cases buf with
    | nil =>
      rw [aexitDrain] at hr
      cases hr
      exact h
    | cons x xs => exact absurd hr (by rw [aexitDrain]; exact Option.noConfusion)
  | succ fuel ih =>
    intro buf o h hr
    cases buf with
    | nil =>
      rw [aexitDrain] at hr
      cases hr
      exact h
    | cons x xs =>
      rw [aexitDrain] at hr
      have hf := flush_pres cfg bkd (x :: xs) hwb h
      cases he : (flush cfg bkd (x :: xs)).err with
      | some e =>
        rw [he] at hr
        simp only [] at hr
        cases hr
        exact hf
      | none =>
        rw [he] at hr
        simp only [] at hr
        cases hd : aexitDrain cfg bkd fuel (flush cfg bkd (x :: xs)).buf with
        | none => rw [hd] at hr; cases hr
        | some o2 =>
          rw [hd] at hr
          cases hr
          exact ih _ o2 hf hd

theorem runOps_pres {ε : Type} (cfg : Config) (bkd : Backend ε)
    (hwb : wellBehaved cfg bkd) (hact : pkeysActive cfg.overwriteByPkeys = true) :
    ∀ (ops : List Op) (buf : List Req) (o : Outcome ε), bufInv (pkL cfg) buf →
    runOps cfg bkd ops buf = some o → bufInv (pkL cfg) o.buf := by
  intro ops
  induction ops with
  | nil =>
    intro buf o h hr
    rw [runOps] at hr
    cases hr
    exact h
  | cons op rest ih =>
    intro buf o h hr
    rw [runOps] at hr
    have hstep : ∀ o1 : Outcome ε, opStep cfg bkd buf op = some o1 →
        bufInv (pkL cfg) o1.buf := by
      intro o1 h1
      cases op with
      | put row =>
        rw [opStep] at h1
        cases h1
        exact addReq_pres cfg bkd buf _ hwb hact h
      | delete key =>
        rw [opStep] at h1
        cases h1
        exact addReq_pres cfg bkd buf _ hwb hact h
      | close fuel =>
        rw [opStep] at h1
        exact drain_pres cfg bkd hwb fuel buf o1 h h1
    cases hs : opStep cfg bkd buf op with
    | none => rw [hs] at hr; cases hr
    | some o1 =>
      rw [hs] at hr
      dsimp only at hr
      have h1 := hstep o1 hs
      cases he : o1.err with
      | some e =>
        rw [he] at hr
        simp only [] at hr
        cases hr
        exact h1
      | none =>
        rw [he] at hr
        simp only [] at hr
        cases h2 : runOps cfg bkd rest o1.buf with
        | none => rw [h2] at hr; cases hr
        | some o2 =>
          rw [h2] at hr
          cases hr
          exact ih o1.buf o2 h1 h2

/-! ## Small-step unfolding helpers -/

theorem addReq_inactive {ε : Type} (cfg : Config) (bkd : Backend ε) (buf : List Req)
    (r : Req) (hinact : pkeysActive cfg.overwriteByPkeys = false) :
    addRequestAndProcess cfg bkd buf r = flushIfNeeded cfg bkd (buf ++ [r]) := by
  rw [addRequestAndProcess]
  have hd : dedupAndAppend cfg r buf = (buf ++ [r], Option.none) := by
    rw [dedupAndAppend, if_neg (by rw [hinact]; exact Bool.false_ne_true)]
  rw [hd]

theorem flushIfNeeded_lt {ε : Type} (cfg : Config) (bkd : Backend ε) (buf : List Req)
    (h : buf.length < cfg.flushAmount) :
    flushIfNeeded cfg bkd buf = ⟨buf, Option.none, []⟩ := by
  rw [flushIfNeeded, if_neg (by omega)]

theorem flushIfNeeded_ge {ε : Type} (cfg : Config) (bkd : Backend ε) (buf : List Req)
    (h : cfg.flushAmount ≤ buf.length) :
    flushIfNeeded cfg bkd buf = flush cfg bkd buf := by
  rw [flushIfNeeded, if_pos h]

theorem flush_calls_eq {ε : Type} (cfg : Config) (bkd : Backend ε) (buf : List Req) :
    (flush cfg bkd buf).calls = [buf.take cfg.flushAmount] := by
  cases hbk : bkd (buf.take cfg.flushAmount) with
  | error e => rw [flush_error_eq cfg bkd buf hbk]
  | ok resp =>
    cases hri : resp.unprocessedItems with
    | none => rw [flush_nokey_eq cfg bkd buf hbk hri]
    | some v => rw [flush_ok_eq cfg bkd buf hbk hri]

/-- The drain loop can only report success on an empty buffer. -/
theorem drain_empty {ε : Type} (cfg : Config) (bkd : Backend ε) :
    ∀ (fuel : Nat) (buf : List Req) (o : Outcome ε),
    aexitDrain cfg bkd fuel buf = some o → o.err = Option.none → o.buf = [] := by
  intro fuel
  induction fuel with
  | zero =>
    intro buf o hr _
    cases buf with
    | nil => rw [aexitDrain] at hr; cases hr; rfl
    | cons x xs => exact absurd hr (by rw [aexitDrain]; exact Option.noConfusion)
  | succ fuel ih =>
    intro buf o hr hok
    cases buf with
    | nil => rw [aexitDrain] at hr; cases hr; rfl
    | cons x xs =>
      rw [aexitDrain] at hr
      cases he : (flush cfg bkd (x :: xs)).err with
      | some e =>
        rw [he] at hr
        simp only [] at hr
        cases hr
        rw [hok] at he
        exact absurd he Option.noConfusion
      | none =>
        rw [he] at hr
        simp only [] at hr
        cases hd : aexitDrain cfg bkd fuel (flush cfg bkd (x :: xs)).buf with
        | none => rw [hd] at hr; cases hr
        | some o2 =>
          rw [hd] at hr
          cases hr
          exact ih _ o2 hd hok

/-! ## Concrete fixtures for witnesses and counterexamples -/

/-- `{K: 1, V: "a"}`. -/
def rowKa : Row := [("K", AttrVal.nat 1), ("V", AttrVal.str "a")]

/-- `{K: 1, V: "b"}` — same key attribute as `rowKa`. -/
def rowKb : Row := [("K", AttrVal.nat 1), ("V", AttrVal.str "b")]

/-- `{K: 2, V: "c"}`. -/
def rowK2 : Row := [("K", AttrVal.nat 2), ("V", AttrVal.str "c")]

/-- A writer with `overwrite_by_pkeys=["K"]` and the default flush amount. -/
def cfgDedup : Config := ⟨"tbl", 25, some ["K"]⟩

/-- A writer with `flush_amount=2` and no dedup. -/
def cfgTwo : Config := ⟨"tbl", 2, Option.none⟩

/-- A backend that always succeeds with an empty unprocessed-items dict. -/
def bkdEmpty : Backend Unit := fun _ => Except.ok ⟨some (UnprocVal.map [])⟩

/-- A backend whose call always raises. -/
def bkdErr : Backend Unit := fun _ => Except.error ()

/-- A backend whose response dict lacks the `'UnprocessedItems'` key. -/
def bkdAbsent : Backend Unit := fun _ => Except.ok ⟨Option.none⟩

theorem bkdEmpty_wellBehaved (cfg : Config) : wellBehaved cfg bkdEmpty := by
  intro sent resp v h1 h2
  cases h1
  cases h2
  show List.Sublist (unprocFor cfg (UnprocVal.map [])) sent
  have : unprocFor cfg (UnprocVal.map []) = [] := rfl
  rw [this]
  exact List.nil_sublist sent

/-! ## Claim theorems -/

/-- C1: with `overwrite_by_pkeys` configured (truthy) and a backend honouring
the spec's contract (unprocessed items are a sub-sequence of the batch sent),
after any terminating sequence of put/delete/close operations from a fresh
buffer, no two buffered requests extract to the same key tuple; and
concretely, `put {K:1,V:"a"}` then `put {K:1,V:"b"}` leaves exactly the one
entry `{K:1,V:"b"}` buffered, with the newer request surviving. -/
theorem dedup_invariant_newest_wins {ε : Type} (cfg : Config) (bkd : Backend ε)
    (hwb : wellBehaved cfg bkd) (hact : pkeysActive cfg.overwriteByPkeys = true)
    (ops : List Op) (o : Outcome ε) (hrun : runOps cfg bkd ops [] = some o) :
    noDupKeys (pkL cfg) o.buf ∧
      runOps cfgDedup bkdEmpty [Op.put rowKa, Op.put rowKb] [] =
        some ⟨[Req.put rowKb], Option.none, []⟩ := by
  constructor
  · have hinv : bufInv (pkL cfg) [] :=
      ⟨fun r hr => absurd hr (List.not_mem_nil r), List.Pairwise.nil⟩
    exact (runOps_pres cfg bkd hwb hact ops [] o hinv hrun).2
  · decide

theorem dedup_invariant_newest_wins_witness :
    wellBehaved cfgDedup bkdEmpty ∧
    pkeysActive cfgDedup.overwriteByPkeys = true ∧
    runOps cfgDedup bkdEmpty [Op.put rowKa, Op.put rowKb] [] =
      some ⟨[Req.put rowKb], Option.none, []⟩ ∧
    noDupKeys (pkL cfgDedup) ((⟨[Req.put rowKb], Option.none, []⟩ : Outcome Unit).buf) :=
  ⟨bkdEmpty_wellBehaved cfgDedup, by decide, by decide,
    (dedup_invariant_newest_wins cfgDedup bkdEmpty (bkdEmpty_wellBehaved cfgDedup)
      (by decide) [Op.put rowKa, Op.put rowKb] ⟨[Req.put rowKb], Option.none, []⟩
      (by decide)).1⟩

/-- C2: for a non-empty buffer, a flush sends exactly the first
`min(flush_amount, length)` requests (the buffer's prefix, in enqueue
order), the buffer is reduced to its remainder before the call (so it is
the remainder even when the call errors), and on success the
backend-reported unprocessed requests are appended after the remainder. -/
theorem flush_sends_prefix_requeues_rest {ε : Type} (cfg : Config) (bkd : Backend ε)
    (buf : List Req) (_hne : buf ≠ []) :
    (buf.take cfg.flushAmount).length = min cfg.flushAmount buf.length ∧
    buf.take cfg.flushAmount ++ buf.drop cfg.flushAmount = buf ∧
    (flush cfg bkd buf).calls = [buf.take cfg.flushAmount] ∧
    (∀ e, bkd (buf.take cfg.flushAmount) = Except.error e →
      flush cfg bkd buf =
        ⟨buf.drop cfg.flushAmount, some (DynErr.backend e), [buf.take cfg.flushAmount]⟩) ∧
    (∀ resp v, bkd (buf.take cfg.flushAmount) = Except.ok resp →
      resp.unprocessedItems = some v →
      flush cfg bkd buf =
        ⟨buf.drop cfg.flushAmount ++ unprocFor cfg v, Option.none,
          [buf.take cfg.flushAmount]⟩) :=
  ⟨List.length_take _ _, List.take_append_drop _ _, flush_calls_eq cfg bkd buf,
    fun _ he => flush_error_eq cfg bkd buf he,
    fun _ _ h1 h2 => flush_ok_eq cfg bkd buf h1 h2⟩

theorem flush_sends_prefix_requeues_rest_witness :
    ([Req.put rowKa, Req.put rowKb, Req.put rowK2] ≠ ([] : List Req)) ∧
    (flush cfgTwo bkdEmpty [Req.put rowKa, Req.put rowKb, Req.put rowK2]).calls =
      [[Req.put rowKa, Req.put rowKb]] :=
  ⟨by decide,
    by
      have h := (flush_sends_prefix_requeues_rest cfgTwo bkdEmpty
        [Req.put rowKa, Req.put rowKb, Req.put rowK2] (by decide)).2.2.1
      rw [h]
      decide⟩

/-- C3: `__aexit__` drains unconditionally: whatever the buffer state, if
the drain loop finishes with no backend call having raised, the buffer is
exactly empty; and the drain is identical on normal and exceptional scope
exits (the exception information is ignored). -/
theorem close_drains_unconditionally {ε : Type} (cfg : Config) (bkd : Backend ε)
    (excInfo excInfo' : Option String) (fuel : Nat) (buf : List Req) (o : Outcome ε)
    (hr : aexit cfg bkd excInfo fuel buf = some o) (hok : o.err = Option.none) :
    o.buf = [] ∧
      aexit cfg bkd excInfo fuel buf = aexit cfg bkd excInfo' fuel buf :=
  ⟨drain_empty cfg bkd fuel buf o hr hok, rfl⟩

theorem close_drains_unconditionally_witness :
    aexit cfgTwo bkdEmpty (some "boom") 2 [Req.put rowKa] =
      some ⟨[], Option.none, [[Req.put rowKa]]⟩ ∧
    (⟨[], Option.none, [[Req.put rowKa]]⟩ : Outcome Unit).err = Option.none ∧
    (⟨[], Option.none, [[Req.put rowKa]]⟩ : Outcome Unit).buf = [] :=
  ⟨by decide, by decide,
    (close_drains_unconditionally cfgTwo bkdEmpty (some "boom") Option.none 2
      [Req.put rowKa] ⟨[], Option.none, [[Req.put rowKa]]⟩ (by decide) (by decide)).1⟩

/-- C4: when the backend call raised during the flush implicitly triggered
by a put/delete (modelled through `_add_request_and_process`, to which
`put_item` and `delete_item` delegate directly), the same error propagates
out of the operation, and the buffer afterwards is exactly the pre-call
remainder: the batch taken off the front was sent and is not restored (in
particular, when the appended buffer has no duplicate entries, no request
of the sent batch remains buffered). -/
theorem flush_error_propagates_batch_not_restored {ε : Type} (cfg : Config)
    (bkd : Backend ε) (buf : List Req) (r : Req) (b : List Req) (e : ε)
    (hd : dedupAndAppend cfg r buf = (b, Option.none))
    (hth : cfg.flushAmount ≤ b.length)
    (hbk : bkd (b.take cfg.flushAmount) = Except.error e) :
    addRequestAndProcess cfg bkd buf r =
      ⟨b.drop cfg.flushAmount, some (DynErr.backend e), [b.take cfg.flushAmount]⟩ ∧
    (∀ item : Row, putItem cfg bkd buf item = addRequestAndProcess cfg bkd buf (Req.put item)) ∧
    (∀ key : Row, deleteItem cfg bkd buf key = addRequestAndProcess cfg bkd buf (Req.delete key)) ∧
    (b.Nodup → ∀ x ∈ b.take cfg.flushAmount, x ∉ b.drop cfg.flushAmount) := by
  refine ⟨?_, fun _ => rfl, fun _ => rfl, ?_⟩
  · rw [addRequestAndProcess, hd]
    show flushIfNeeded cfg bkd b = _
    rw [flushIfNeeded_ge cfg bkd b hth, flush_error_eq cfg bkd b hbk]
  · intro hnd x hx hmem
    have hnd' : (b.take cfg.flushAmount ++ b.drop cfg.flushAmount).Nodup := by
      rw [List.take_append_drop]
      exact hnd
    rw [List.nodup_append] at hnd'
    exact hnd'.2.2 hx hmem

theorem flush_error_propagates_batch_not_restored_witness :
    dedupAndAppend cfgTwo (Req.put rowKb) [Req.put rowKa] =
      ([Req.put rowKa, Req.put rowKb], Option.none) ∧
    cfgTwo.flushAmount ≤ [Req.put rowKa, Req.put rowKb].length ∧
    bkdErr ([Req.put rowKa, Req.put rowKb].take cfgTwo.flushAmount) = Except.error () ∧
    addRequestAndProcess cfgTwo bkdErr [Req.put rowKa] (Req.put rowKb) =
      ⟨[], some (DynErr.backend ()), [[Req.put rowKa, Req.put rowKb]]⟩ :=
  ⟨by decide, by decide, by decide,
    by
      have h := (flush_error_propagates_batch_not_restored cfgTwo bkdErr
        [Req.put rowKa] (Req.put rowKb) [Req.put rowKa, Req.put rowKb] ()
        (by decide) (by decide) (by decide)).1
      rw [h]
      decide⟩

/-- C5: with `flush_amount = 2`, no dedup, and a backend reporting no
unprocessed items, three puts on a fresh buffer make exactly one backend
call, carrying exactly the first two requests in call order, and leave
exactly the third request buffered. -/
theorem three_puts_one_flush_first_two {ε : Type} (tbl : String) (bkd : Backend ε)
    (r1 r2 r3 : Row) (resp : Response) (v : UnprocVal)
    (hbk : bkd [Req.put r1, Req.put r2] = Except.ok resp)
    (hri : resp.unprocessedItems = Option.some v)
    (hu : unprocFor ⟨tbl, 2, Option.none⟩ v = []) :
    runOps ⟨tbl, 2, Option.none⟩ bkd [Op.put r1, Op.put r2, Op.put r3] [] =
      some ⟨[Req.put r3], Option.none, [[Req.put r1, Req.put r2]]⟩ := by
  have hinact : pkeysActive (Config.overwriteByPkeys ⟨tbl, 2, Option.none⟩) = false := rfl
  have s1 : opStep ⟨tbl, 2, Option.none⟩ bkd [] (Op.put r1) =
      some ⟨[Req.put r1], Option.none, []⟩ := by
    rw [opStep, putItem, addReq_inactive _ _ _ _ hinact,
      flushIfNeeded_lt _ _ _ (by simp)]
    simp
  have s2 : opStep ⟨tbl, 2, Option.none⟩ bkd [Req.put r1] (Op.put r2) =
      some ⟨[], Option.none, [[Req.put r1, Req.put r2]]⟩ := by
    rw [opStep, putItem, addReq_inactive _ _ _ _ hinact,
      flushIfNeeded_ge _ _ _ (by simp),
      flush_ok_eq ⟨tbl, 2, Option.none⟩ bkd ([Req.put r1] ++ [Req.put r2])
        (by exact hbk) hri]
    rw [show ([Req.put r1] ++ [Req.put r2] : List Req).drop
        (Config.flushAmount ⟨tbl, 2, Option.none⟩) = [] from rfl]
    rw [List.nil_append, hu]
    rfl
  have s3 : opStep ⟨tbl, 2, Option.none⟩ bkd [] (Op.put r3) =
      some ⟨[Req.put r3], Option.none, []⟩ := by
    rw [opStep, putItem, addReq_inactive _ _ _ _ hinact,
      flushIfNeeded_lt _ _ _ (by simp)]
    simp
  rw [runOps, s1]
  dsimp only
  rw [runOps, s2]
  dsimp only
  rw [runOps, s3]
  dsimp only
  rw [runOps]
  dsimp only
  simp

theorem three_puts_one_flush_first_two_witness :
    bkdEmpty [Req.put rowKa, Req.put rowKb] = Except.ok ⟨some (UnprocVal.map [])⟩ ∧
    (⟨some (UnprocVal.map [])⟩ : Response).unprocessedItems = Option.some (UnprocVal.map []) ∧
    unprocFor ⟨"tbl", 2, Option.none⟩ (UnprocVal.map []) = [] ∧
    runOps ⟨"tbl", 2, Option.none⟩ bkdEmpty [Op.put rowKa, Op.put rowKb, Op.put rowK2] [] =
      some ⟨[Req.put rowK2], Option.none, [[Req.put rowKa, Req.put rowKb]]⟩ :=
  ⟨rfl, rfl, rfl,
    three_puts_one_flush_first_two "tbl" bkdEmpty rowKa rowKb rowK2
      ⟨some (UnprocVal.map [])⟩ (UnprocVal.map []) rfl rfl rfl⟩

/-- At most one element is dropped by `eraseP`. -/
theorem length_le_eraseP_succ (p : Req → Bool) :
    ∀ l : List Req, l.length ≤ (l.eraseP p).length + 1 := by
  intro l
  induction l with
  | nil => simp
  | cons x xs ih =>
    by_cases hp : p x = true
    · rw [List.eraseP_cons_of_pos hp]
      simp
    · rw [List.eraseP_cons_of_neg hp]
      simp only [List.length_cons]
      omega

/-- C7 counterexample: with `overwrite_by_pkeys = ["K"]` and a buffer
holding two non-adjacent entries whose key attribute equals the incoming
request's, the dedup-and-append step removes BOTH of them (the append of
one new request still shrinks the buffer), refuting "removes at most one
existing entry". -/
theorem dedup_scan_removes_two_counterexample :
    dedupAndAppend cfgDedup (Req.put [("K", AttrVal.nat 1), ("V", AttrVal.str "z")])
        [Req.put [("K", AttrVal.nat 1), ("V", AttrVal.str "x")],
          Req.put [("K", AttrVal.nat 2), ("V", AttrVal.str "m")],
          Req.put [("K", AttrVal.nat 1), ("V", AttrVal.str "y")]] =
      ([Req.put [("K", AttrVal.nat 2), ("V", AttrVal.str "m")],
        Req.put [("K", AttrVal.nat 1), ("V", AttrVal.str "z")]], Option.none) ∧
    (dedupAndAppend cfgDedup (Req.put [("K", AttrVal.nat 1), ("V", AttrVal.str "z")])
        [Req.put [("K", AttrVal.nat 1), ("V", AttrVal.str "x")],
          Req.put [("K", AttrVal.nat 2), ("V", AttrVal.str "m")],
          Req.put [("K", AttrVal.nat 1), ("V", AttrVal.str "y")]]).1.length <
      [Req.put [("K", AttrVal.nat 1), ("V", AttrVal.str "x")],
        Req.put [("K", AttrVal.nat 2), ("V", AttrVal.str "m")],
        Req.put [("K", AttrVal.nat 1), ("V", AttrVal.str "y")]].length := by
  constructor
  · rfl
  · decide

/-- C7 (amended): when at most one buffered entry matches the incoming
request's key tuple — which the dedup invariant guarantees for every
buffer reachable with a contract-honouring backend — the dedup-and-append
step removes exactly that first (unique) matching entry before appending,
so at most one entry is removed; on buffers with several matching
entries the index-based scan can remove more than one (see the
counterexample). -/
theorem dedup_scan_removes_unique_match (cfg : Config) (r : Req) (buf : List Req)
    (t : List AttrVal) (hact : pkeysActive cfg.overwriteByPkeys = true)
    (ht : extractPkeyValues (pkL cfg) r = Except.ok t)
    (hok : ∀ x ∈ buf, ∃ e, extractPkeyValues (pkL cfg) x = Except.ok e)
    (hcnt : buf.countP (matchB (pkL cfg) t) ≤ 1) :
    dedupAndAppend cfg r buf =
      (buf.eraseP (matchB (pkL cfg) t) ++ [r], Option.none) ∧
    buf.length ≤ (buf.eraseP (matchB (pkL cfg) t)).length + 1 :=
  ⟨dedupAndAppend_eq cfg r buf t hact ht hok hcnt,
    length_le_eraseP_succ _ buf⟩

theorem dedup_scan_removes_unique_match_witness :
    pkeysActive cfgDedup.overwriteByPkeys = true ∧
    extractPkeyValues (pkL cfgDedup) (Req.put rowKb) = Except.ok [AttrVal.nat 1] ∧
    dedupAndAppend cfgDedup (Req.put rowKb) [Req.put rowKa, Req.put rowK2] =
      ([Req.put rowK2, Req.put rowKb], Option.none) :=
  ⟨by decide, by decide,
    by
      have h := (dedup_scan_removes_unique_match cfgDedup (Req.put rowKb)
        [Req.put rowKa, Req.put rowK2] [AttrVal.nat 1] (by decide) (by decide)
        (by
          intro x hx
          fin_cases hx
          · exact ⟨[AttrVal.nat 1], rfl⟩
          · exact ⟨[AttrVal.nat 2], rfl⟩)
        (by decide)).1
      rw [h]
      decide⟩

/-- C8 counterexample: a backend response that lacks the
`'UnprocessedItems'` key entirely makes the flush raise a `KeyError`
instead of completing as full success, refuting the "absent" part of the
claim. -/
theorem flush_absent_unprocessed_raises_counterexample :
    flush cfgTwo bkdAbsent [Req.put rowKa] =
      ⟨[], some DynErr.respKeyError, [[Req.put rowKa]]⟩ ∧
    (flush cfgTwo bkdAbsent [Req.put rowKa]).err ≠ Option.none := by
  constructor
  · rfl
  · decide

/-- C8 (amended): when the response's unprocessed-items entry is present —
whether a falsy value (`None` or an empty dict) or a dict mapping the
target (or only other tables) to an empty sequence — flush completes
without error and appends nothing, leaving exactly the pre-flush remainder
buffered.  (A response with the entry absent instead raises `KeyError`,
see the counterexample.) -/
theorem flush_empty_unprocessed_success {ε : Type} (cfg : Config) (bkd : Backend ε)
    (buf : List Req) (resp : Response) (v : UnprocVal)
    (hbk : bkd (buf.take cfg.flushAmount) = Except.ok resp)
    (hri : resp.unprocessedItems = Option.some v)
    (hemp : unprocFor cfg v = []) :
    flush cfg bkd buf =
      ⟨buf.drop cfg.flushAmount, Option.none, [buf.take cfg.flushAmount]⟩ := by
  rw [flush_ok_eq cfg bkd buf hbk hri, hemp, List.append_nil]

theorem flush_empty_unprocessed_success_witness :
    bkdEmpty ([Req.put rowKa, Req.put rowKb, Req.put rowK2].take cfgTwo.flushAmount) =
      Except.ok ⟨some (UnprocVal.map [])⟩ ∧
    unprocFor cfgTwo (UnprocVal.map []) = [] ∧
    flush cfgTwo bkdEmpty [Req.put rowKa, Req.put rowKb, Req.put rowK2] =
      ⟨[Req.put rowK2], Option.none, [[Req.put rowKa, Req.put rowKb]]⟩ :=
  ⟨rfl, rfl,
    by
      have h := flush_empty_unprocessed_success cfgTwo bkdEmpty
        [Req.put rowKa, Req.put rowKb, Req.put rowK2] ⟨some (UnprocVal.map [])⟩
        (UnprocVal.map []) rfl rfl rfl
      rw [h]
      decide⟩

/-- A missing configured attribute makes the key extraction raise
`KeyError` (at the first missing attribute, in configured order). -/
theorem extract_error_of_missing (m : Row) :
    ∀ pk : List String, (∃ k ∈ pk, m.lookup k = Option.none) →
    ∃ k, pk.mapM (lookupAttr m) = Except.error k := by
  intro pk
  induction pk with
  | nil =>
    intro hmiss
    obtain ⟨k, hk, _⟩ := hmiss
    exact absurd hk (List.not_mem_nil k)
  | cons p ps ih =>
    intro hmiss
    cases hl : m.lookup p with
    | none =>
      refine ⟨p, ?_⟩
      rw [List.mapM_cons]
      have hlp : lookupAttr m p = Except.error p := by rw [lookupAttr, hl]
      rw [hlp]
      rfl
    | some w =>
      obtain ⟨k, hk, hkm⟩ := hmiss
      rcases List.mem_cons.mp hk with h1 | h1
      · subst h1
        rw [hl] at hkm
        exact absurd hkm Option.noConfusion
      · obtain ⟨k', hk'⟩ := ih ⟨k, h1, hkm⟩
        refine ⟨k', ?_⟩
        rw [List.mapM_cons]
        have hlp : lookupAttr m p = Except.ok w := by rw [lookupAttr, hl]
        rw [hlp, hk']
        rfl

/-- C9: with a truthy `overwrite_by_pkeys`, a put (or delete) whose
row (or key) lacks one of the configured attributes raises a `KeyError`
before anything is buffered: the operation reports the lookup error, the
buffer is unchanged, and no backend call is made. -/
theorem missing_dedup_attribute_fails_fast {ε : Type} (cfg : Config) (bkd : Backend ε)
    (buf : List Req) (row key : Row)
    (hact : pkeysActive cfg.overwriteByPkeys = true)
    (hrow : ∃ k ∈ pkL cfg, row.lookup k = Option.none)
    (hkey : ∃ k ∈ pkL cfg, key.lookup k = Option.none) :
    (∃ k, putItem cfg bkd buf row = ⟨buf, some (DynErr.keyError k), []⟩) ∧
    (∃ k, deleteItem cfg bkd buf key = ⟨buf, some (DynErr.keyError k), []⟩) := by
  constructor
  · obtain ⟨k, hk⟩ := extract_error_of_missing row (pkL cfg) hrow
    refine ⟨k, ?_⟩
    rw [putItem, addRequestAndProcess]
    have hd : dedupAndAppend cfg (Req.put row) buf = (buf, some k) := by
      rw [dedupAndAppend, if_pos hact, removeDupPkeysRequestIfAny,
        show extractPkeyValues (pkL cfg) (Req.put row) = Except.error k from hk]
    rw [hd]
  · obtain ⟨k, hk⟩ := extract_error_of_missing key (pkL cfg) hkey
    refine ⟨k, ?_⟩
    rw [deleteItem, addRequestAndProcess]
    have hd : dedupAndAppend cfg (Req.delete key) buf = (buf, some k) := by
      rw [dedupAndAppend, if_pos hact, removeDupPkeysRequestIfAny,
        show extractPkeyValues (pkL cfg) (Req.delete key) = Except.error k from hk]
    rw [hd]

theorem missing_dedup_attribute_fails_fast_witness :
    pkeysActive cfgDedup.overwriteByPkeys = true ∧
    (∃ k ∈ pkL cfgDedup, List.lookup k [("V", AttrVal.str "z")] = Option.none) ∧
    (∃ k, putItem cfgDedup bkdEmpty [Req.put rowKa] [("V", AttrVal.str "z")] =
      ⟨[Req.put rowKa], some (DynErr.keyError k), []⟩) :=
  ⟨by decide, ⟨"K", by decide, by decide⟩,
    (missing_dedup_attribute_fails_fast cfgDedup bkdEmpty [Req.put rowKa]
      [("V", AttrVal.str "z")] [("V", AttrVal.str "z")] (by decide)
      ⟨"K", by decide, by decide⟩ ⟨"K", by decide, by decide⟩).1⟩

/-- C10: a falsy `overwrite_by_pkeys` (`None` or the empty list) disables
deduplication entirely: the dedup-and-append step appends without any
scan, and `_add_request_and_process` behaves identically to a writer
constructed with `overwrite_by_pkeys=None`. -/
theorem falsy_dedup_keys_disable_dedup {ε : Type} (tbl : String) (fa : Nat)
    (opk : Option (List String)) (hfalsy : pkeysActive opk = false)
    (bkd : Backend ε) (buf : List Req) (r : Req) :
    dedupAndAppend ⟨tbl, fa, opk⟩ r buf = (buf ++ [r], Option.none) ∧
    addRequestAndProcess ⟨tbl, fa, opk⟩ bkd buf r =
      addRequestAndProcess ⟨tbl, fa, Option.none⟩ bkd buf r := by
  have hov : pkeysActive (Config.overwriteByPkeys ⟨tbl, fa, opk⟩) = false := hfalsy
  have h1 : dedupAndAppend ⟨tbl, fa, opk⟩ r buf = (buf ++ [r], Option.none) := by
    rw [dedupAndAppend, if_neg (by rw [hov]; exact Bool.false_ne_true)]
  have h2 : dedupAndAppend ⟨tbl, fa, Option.none⟩ r buf = (buf ++ [r], Option.none) := by
    rw [dedupAndAppend, if_neg (by intro hc; exact Bool.false_ne_true hc)]
  refine ⟨h1, ?_⟩
  rw [addRequestAndProcess, h1, addRequestAndProcess, h2]
  rfl

theorem falsy_dedup_keys_disable_dedup_witness :
    pkeysActive (some ([] : List String)) = false ∧
    dedupAndAppend ⟨"tbl", 25, some []⟩ (Req.put rowKa) [] =
      ([Req.put rowKa], Option.none) ∧
    addRequestAndProcess ⟨"tbl", 25, some []⟩ bkdEmpty [] (Req.put rowKa) =
      addRequestAndProcess ⟨"tbl", 25, Option.none⟩ bkdEmpty [] (Req.put rowKa) :=
  ⟨by decide,
    by
      have h := (falsy_dedup_keys_disable_dedup "tbl" 25 (some []) (by decide)
        bkdEmpty [] (Req.put rowKa)).1
      rw [h]
      rfl,
    (falsy_dedup_keys_disable_dedup "tbl" 25 (some []) (by decide)
      bkdEmpty [] (Req.put rowKa)).2⟩

/-! ## Below-threshold runs (C6) -/

/-- The request enqueued by a put/delete operation (`none` for a close). -/
def reqOf : Op → Option Req
  | Op.put row => some (Req.put row)
  | Op.delete key => some (Req.delete key)
  | Op.close _ => Option.none

/-- The requests enqueued by a sequence of operations, in order. -/
def opsReqs (ops : List Op) : List Req := ops.filterMap reqOf

/-- The set of distinct extraction results over a list of requests. -/
def tupleFinset (pk : List String) (l : List Req) :
    Finset (Except String (List AttrVal)) :=
  (l.map (extractPkeyValues pk)).toFinset

/-- Number of dedup collisions in a call sequence: the number of calls
whose extracted key tuple duplicates another call's (zero when dedup is
disabled). -/
def dedupCollisions (cfg : Config) (reqs : List Req) : Nat :=
  if pkeysActive cfg.overwriteByPkeys then
    reqs.length - (tupleFinset (pkL cfg) reqs).card
  else 0

theorem opsReqs_length : ∀ ops : List Op, (∀ op ∈ ops, reqOf op ≠ Option.none) →
    (opsReqs ops).length = ops.length := by
  intro ops
  induction ops with
  | nil => intro _; rfl
  | cons op rest ih =>
    intro h
    cases hro : reqOf op with
    | none => exact absurd hro (h op (List.mem_cons_self op rest))
    | some r =>
      rw [opsReqs, List.filterMap_cons_some hro, List.length_cons, List.length_cons,
        show List.filterMap reqOf rest = opsReqs rest from rfl,
        ih (fun o ho => h o (List.mem_cons_of_mem op ho))]

theorem tupleFinset_cons (pk : List String) (r : Req) (l : List Req) :
    tupleFinset pk (r :: l) =
      insert (extractPkeyValues pk r) (tupleFinset pk l) := by
  rw [tupleFinset, tupleFinset, List.map_cons, List.toFinset_cons]

/-- Erasing the unique match and appending the new request adds exactly the
new request's tuple to the buffer's tuple set. -/
theorem tupleFinset_erase_append (pk : List String) (buf : List Req) (r : Req)
    (t : List AttrVal) (ht : extractPkeyValues pk r = Except.ok t) :
    tupleFinset pk (buf.eraseP (matchB pk t) ++ [r]) =
      insert (Except.ok t) (tupleFinset pk buf) := by
  ext x
  simp only [tupleFinset, List.mem_toFinset, List.mem_map, Finset.mem_insert]
  constructor
  · rintro ⟨a, ha, hax⟩
    rcases List.mem_append.mp ha with h1 | h1
    · right
      exact ⟨a, (List.eraseP_sublist buf).subset h1, hax⟩
    · rw [List.mem_singleton] at h1
      subst h1
      left
      rw [← hax, ht]
  · rintro (hx | ⟨a, ha, hax⟩)
    · refine ⟨r, List.mem_append.mpr (Or.inr (List.mem_singleton.mpr rfl)), ?_⟩
      rw [ht, hx]
    · by_cases hm : matchB pk t a = true
      · have hat : extractPkeyValues pk a = Except.ok t := by
          rw [matchB, decide_eq_true_iff] at hm
          exact hm
        refine ⟨r, List.mem_append.mpr (Or.inr (List.mem_singleton.mpr rfl)), ?_⟩
        rw [ht, ← hax, hat]
      · refine ⟨a, List.mem_append.mpr (Or.inl ?_), hax⟩
        rw [List.mem_eraseP_of_neg hm]
        exact ha

/-- One below-threshold put/delete with dedup active: the step succeeds
without flushing, preserves the invariant, adds the new tuple to the tuple
set, and grows the buffer by at most one. -/
theorem add_below_threshold {ε : Type} (cfg : Config) (bkd : Backend ε)
    (buf : List Req) (r : Req) (t : List AttrVal)
    (hact : pkeysActive cfg.overwriteByPkeys = true)
    (ht : extractPkeyValues (pkL cfg) r = Except.ok t)
    (hinv : bufInv (pkL cfg) buf)
    (hroom : buf.length + 1 < cfg.flushAmount) :
    addRequestAndProcess cfg bkd buf r =
      ⟨buf.eraseP (matchB (pkL cfg) t) ++ [r], Option.none, []⟩ ∧
    bufInv (pkL cfg) (buf.eraseP (matchB (pkL cfg) t) ++ [r]) ∧
    tupleFinset (pkL cfg) (buf.eraseP (matchB (pkL cfg) t) ++ [r]) =
      insert (Except.ok t) (tupleFinset (pkL cfg) buf) ∧
    (buf.eraseP (matchB (pkL cfg) t) ++ [r]).length ≤ buf.length + 1 := by
  have hcnt := countP_matchB_le_one (pkL cfg) t buf hinv.2
  have hlenP : (buf.eraseP (matchB (pkL cfg) t)).length ≤ buf.length :=
    (List.eraseP_sublist buf).length_le
  have hlen1 : (buf.eraseP (matchB (pkL cfg) t) ++ [r]).length ≤ buf.length + 1 := by
    rw [List.length_append]
    simp only [List.length_singleton]
    omega
  refine ⟨?_, bufInv_append_erase _ buf r t ht hinv,
    tupleFinset_erase_append _ buf r t ht, hlen1⟩
  rw [addRequestAndProcess, dedupAndAppend_eq cfg r buf t hact ht hinv.1 hcnt]
  exact flushIfNeeded_lt cfg bkd _ (by omega)

/-- Below-threshold runs with dedup active: no backend call, no error, and
the final tuple set is the union of the initial buffer's and the enqueued
requests'. -/
theorem runOps_below_active {ε : Type} (cfg : Config) (bkd : Backend ε)
    (hact : pkeysActive cfg.overwriteByPkeys = true) :
    ∀ (ops : List Op) (buf : List Req),
    (∀ op ∈ ops, reqOf op ≠ Option.none) →
    (∀ r ∈ opsReqs ops, ∃ e, extractPkeyValues (pkL cfg) r = Except.ok e) →
    bufInv (pkL cfg) buf →
    buf.length + ops.length ≤ cfg.flushAmount - 1 →
    ∃ bufF : List Req, runOps cfg bkd ops buf = some ⟨bufF, Option.none, []⟩ ∧
      bufInv (pkL cfg) bufF ∧
      tupleFinset (pkL cfg) bufF =
        tupleFinset (pkL cfg) buf ∪ tupleFinset (pkL cfg) (opsReqs ops) := by
  intro ops
  induction ops with
  | nil =>
    intro buf _ _ hinv _
    refine ⟨buf, by rw [runOps], hinv, ?_⟩
    rw [show opsReqs [] = [] from rfl,
      show tupleFinset (pkL cfg) [] = ∅ from rfl, Finset.union_empty]
  | cons op rest ih =>
    intro buf hops hok hinv hbound
    have hboundlen : buf.length + rest.length + 1 ≤ cfg.flushAmount - 1 := by
      rw [List.length_cons] at hbound
      omega
    cases op with
    | close fuel =>
      exact absurd rfl (hops (Op.close fuel) (List.mem_cons_self _ _))
    | put row =>
      have hreqs : opsReqs (Op.put row :: rest) = Req.put row :: opsReqs rest := rfl
      obtain ⟨t, ht⟩ := hok (Req.put row) (by rw [hreqs]; exact List.mem_cons_self _ _)
      obtain ⟨hadd, hinv', hset', hlen'⟩ :=
        add_below_threshold cfg bkd buf (Req.put row) t hact ht hinv (by omega)
      obtain ⟨bufF, hrun, hinvF, hsetF⟩ := ih
        (buf.eraseP (matchB (pkL cfg) t) ++ [Req.put row])
        (fun o ho => hops o (List.mem_cons_of_mem _ ho))
        (fun r hr => hok r (by rw [hreqs]; exact List.mem_cons_of_mem _ hr))
        hinv' (by omega)
      refine ⟨bufF, ?_, hinvF, ?_⟩
      · rw [runOps, show opStep cfg bkd buf (Op.put row) =
            some ⟨buf.eraseP (matchB (pkL cfg) t) ++ [Req.put row], Option.none, []⟩
          from by rw [opStep, putItem, hadd]]
        dsimp only
        rw [hrun]
        rfl
      · rw [hsetF, hset', hreqs, tupleFinset_cons, ht, Finset.insert_union,
          Finset.union_insert]
    | delete key =>
      have hreqs : opsReqs (Op.delete key :: rest) = Req.delete key :: opsReqs rest := rfl
      obtain ⟨t, ht⟩ := hok (Req.delete key) (by rw [hreqs]; exact List.mem_cons_self _ _)
      obtain ⟨hadd, hinv', hset', hlen'⟩ :=
        add_below_threshold cfg bkd buf (Req.delete key) t hact ht hinv (by omega)
      obtain ⟨bufF, hrun, hinvF, hsetF⟩ := ih
        (buf.eraseP (matchB (pkL cfg) t) ++ [Req.delete key])
        (fun o ho => hops o (List.mem_cons_of_mem _ ho))
        (fun r hr => hok r (by rw [hreqs]; exact List.mem_cons_of_mem _ hr))
        hinv' (by omega)
      refine ⟨bufF, ?_, hinvF, ?_⟩
      · rw [runOps, show opStep cfg bkd buf (Op.delete key) =
            some ⟨buf.eraseP (matchB (pkL cfg) t) ++ [Req.delete key], Option.none, []⟩
          from by rw [opStep, deleteItem, hadd]]
        dsimp only
        rw [hrun]
        rfl
      · rw [hsetF, hset', hreqs, tupleFinset_cons, ht, Finset.insert_union,
          Finset.union_insert]

/-- Below-threshold runs with dedup disabled: no backend call, no error,
and the buffer grows by exactly one per call. -/
theorem runOps_below_inactive {ε : Type} (cfg : Config) (bkd : Backend ε)
    (hinact : pkeysActive cfg.overwriteByPkeys = false) :
    ∀ (ops : List Op) (buf : List Req),
    (∀ op ∈ ops, reqOf op ≠ Option.none) →
    buf.length + ops.length ≤ cfg.flushAmount - 1 →
    ∃ bufF : List Req, runOps cfg bkd ops buf = some ⟨bufF, Option.none, []⟩ ∧
      bufF.length = buf.length + ops.length := by
  intro ops
  induction ops with
  | nil =>
    intro buf _ _
    exact ⟨buf, by rw [runOps], by simp⟩
  | cons op rest ih =>
    intro buf hops hbound
    have hboundlen : buf.length + rest.length + 1 ≤ cfg.flushAmount - 1 := by
      rw [List.length_cons] at hbound
      omega
    have hgen : ∀ r : Req, addRequestAndProcess cfg bkd buf r =
        ⟨buf ++ [r], Option.none, []⟩ := by
      intro r
      rw [addReq_inactive cfg bkd buf r hinact]
      exact flushIfNeeded_lt cfg bkd _ (by
        rw [List.length_append]
        simp only [List.length_singleton]
        omega)
    have hassemble : ∀ r : Req, opStep cfg bkd buf op = some ⟨buf ++ [r], Option.none, []⟩ →
        ∃ bufF : List Req, runOps cfg bkd (op :: rest) buf = some ⟨bufF, Option.none, []⟩ ∧
          bufF.length = buf.length + (op :: rest).length := by
      intro r hstep
      obtain ⟨bufF, hrun, hlenF⟩ := ih (buf ++ [r])
        (fun o ho => hops o (List.mem_cons_of_mem _ ho))
        (by rw [List.length_append]; simp only [List.length_singleton]; omega)
      refine ⟨bufF, ?_, ?_⟩
      · rw [runOps, hstep]
        dsimp only
        rw [hrun]
        rfl
      · rw [hlenF, List.length_append, List.length_cons]
        simp only [List.length_cons, List.length_nil]
        omega
    cases op with
    | close fuel =>
      exact absurd rfl (hops (Op.close fuel) (List.mem_cons_self _ _))
    | put row =>
      exact hassemble (Req.put row) (by rw [opStep, putItem, hgen])
    | delete key =>
      exact hassemble (Req.delete key) (by rw [opStep, deleteItem, hgen])

/-- C6: a sequence of at most `flush_amount - 1` put/delete calls on a
fresh buffer makes no backend call and raises no error, and the resulting
buffer length is the number of calls minus the number of dedup collisions
among them (zero collisions when dedup is disabled). -/
theorem below_threshold_no_backend_calls {ε : Type} (cfg : Config) (bkd : Backend ε)
    (ops : List Op)
    (hops : ∀ op ∈ ops, reqOf op ≠ Option.none)
    (hlen : ops.length ≤ cfg.flushAmount - 1)
    (hok : pkeysActive cfg.overwriteByPkeys = true →
      ∀ r ∈ opsReqs ops, ∃ e, extractPkeyValues (pkL cfg) r = Except.ok e) :
    ∃ o : Outcome ε, runOps cfg bkd ops [] = some o ∧
      o.calls = [] ∧ o.err = Option.none ∧
      o.buf.length = ops.length - dedupCollisions cfg (opsReqs ops) := by
  have hlrq := opsReqs_length ops hops
  cases hact : pkeysActive cfg.overwriteByPkeys with
  | true =>
    obtain ⟨bufF, hrun, hinvF, hsetF⟩ := runOps_below_active cfg bkd hact ops []
      hops (hok hact)
      ⟨fun r hr => absurd hr (List.not_mem_nil r), List.Pairwise.nil⟩
      (by simpa using hlen)
    refine ⟨⟨bufF, Option.none, []⟩, hrun, rfl, rfl, ?_⟩
    have hnodup : (bufF.map (extractPkeyValues (pkL cfg))).Nodup :=
      List.pairwise_map.mpr hinvF.2
    have hcard : bufF.length = (tupleFinset (pkL cfg) bufF).card := by
      rw [tupleFinset, List.toFinset_card_of_nodup hnodup, List.length_map]
    have hsets : tupleFinset (pkL cfg) bufF = tupleFinset (pkL cfg) (opsReqs ops) := by
      rw [hsetF, show tupleFinset (pkL cfg) [] = ∅ from rfl, Finset.empty_union]
    have hle : (tupleFinset (pkL cfg) (opsReqs ops)).card ≤ (opsReqs ops).length := by
      have h := List.toFinset_card_le ((opsReqs ops).map (extractPkeyValues (pkL cfg)))
      rw [List.length_map] at h
      exact h
    rw [dedupCollisions, if_pos hact]
    dsimp only
    rw [hcard, hsets]
    omega
  | false =>
    obtain ⟨bufF, hrun, hlenF⟩ := runOps_below_inactive cfg bkd hact ops [] hops
      (by simpa using hlen)
    refine ⟨⟨bufF, Option.none, []⟩, hrun, rfl, rfl, ?_⟩
    rw [dedupCollisions, if_neg (by rw [hact]; exact Bool.false_ne_true)]
    simpa using hlenF

theorem below_threshold_no_backend_calls_witness :
    (∀ op ∈ [Op.put rowKa, Op.put rowKb], reqOf op ≠ Option.none) ∧
    [Op.put rowKa, Op.put rowKb].length ≤ cfgDedup.flushAmount - 1 ∧
    (∃ o : Outcome Unit, runOps cfgDedup bkdErr [Op.put rowKa, Op.put rowKb] [] = some o ∧
      o.calls = [] ∧ o.err = Option.none ∧
      o.buf.length = [Op.put rowKa, Op.put rowKb].length -
        dedupCollisions cfgDedup (opsReqs [Op.put rowKa, Op.put rowKb])) :=
  ⟨by decide, by decide,
    below_threshold_no_backend_calls cfgDedup bkdErr [Op.put rowKa, Op.put rowKb]
      (by decide) (by decide)
      (fun _ => by
        intro r hr
        fin_cases hr
        · exact ⟨[AttrVal.nat 1], rfl⟩
        · exact ⟨[AttrVal.nat 1], rfl⟩)⟩

end BatchWriter
